import Mathlib

/-!
Shallow embedding of `lib/classes/many_to_many.py`: the `Article`, `Author`
and `Magazine` classes, their constructors, property setters and derived
queries, together with proofs of the specification's claims about them.

Modelling conventions:
* Python's dynamic argument values are embedded as `PyVal`; `isinstance`
  checks become matches on the `PyVal` constructor tag.
* Object identity (Python's default `==` for these classes) is modelled by a
  numeric `id` field on `Author` and `Magazine`; an `Article` stores the ids
  of its author and magazine, mirroring the references it holds.
* The process-wide registries `Article.all` and `Magazine.all` are a
  `RegState` record threaded through the constructors; `append` becomes
  `++ [x]`.
* `raise Exception(msg)` becomes returning `Except.error msg`; a constructor
  returns the (possibly unchanged) registry state together with the outcome,
  so that "the registry is unchanged on failure" is a provable statement.
* Python 3.7+ `dict` aggregation (insertion-ordered, `get`/update) is
  embedded as an association list: `bump` is one `d[k] = d.get(k, 0) + 1`
  step, `countsOf` the whole loop.  `max(d, key=d.get)` keeps the first key
  attaining the maximum, as CPython's `max` does.
* `list(set(...))` yields the distinct elements; the embedding keeps them in
  first-occurrence order (`firstSeen`), a legitimate instance of CPython's
  unspecified set iteration order.
-/

namespace ManyToMany

/-- A dynamically-typed Python value, as far as the validation code
inspects it: an `Author` reference, a `Magazine` reference, a string, or
some other value (modelled by `vInt`/`vNone`) that fails every
`isinstance` check of interest. -/
inductive PyVal where
  | vAuthor (id : Nat)
  | vMagazine (id : Nat)
  | vStr (s : String)
  | vInt (n : Int)
  | vNone
  deriving DecidableEq, Repr

/-- `class Author`: `_name` plus an identity for reference equality. -/
structure Author where
  id : Nat
  name : String
  deriving DecidableEq, Repr

/-- `class Magazine`: `_name`, `_category`, plus an identity. -/
structure Magazine where
  id : Nat
  name : String
  category : String
  deriving DecidableEq, Repr

/-- `class Article`: `_title` plus the identities of the `_author` and
`_magazine` references. -/
structure Article where
  authorId : Nat
  magazineId : Nat
  title : String
  deriving DecidableEq, Repr

/-- The process-wide registries `Article.all` and `Magazine.all`
(append-only, insertion ordered). -/
structure RegState where
  articleAll : List Article
  magazineAll : List Magazine
  deriving DecidableEq, Repr

/-- `Article.__init__(self, author, magazine, title)`: four validation
checks in source order, then the fields are stored and `self` is appended
to `Article.all`.  The registry state is returned unchanged on every error
path, since every `raise` precedes the `append`. -/
def Article.init (s : RegState) (author magazine title : PyVal) :
    RegState × Except String Article :=
  match author with
  | PyVal.vAuthor aid =>
    match magazine with
    | PyVal.vMagazine mid =>
      match title with
      | PyVal.vStr t =>
        if 5 ≤ t.length ∧ t.length ≤ 50 then
          let art : Article := ⟨aid, mid, t⟩
          ({ s with articleAll := s.articleAll ++ [art] }, Except.ok art)
        else
          (s, Except.error "Title must be between 5 and 50 characters")
      | _ => (s, Except.error "Title must be a string")
    | _ => (s, Except.error "Magazine must be an instance of Magazine")
  | _ => (s, Except.error "Author must be an instance of Author")

/-- `Article.title` setter: `pass` — the assignment is silently ignored. -/
def Article.setTitle (a : Article) (_v : PyVal) : Article := a

/-- `Article.author` setter: validates, then replaces the reference. -/
def Article.setAuthor (a : Article) (v : PyVal) : Except String Article :=
  match v with
  | PyVal.vAuthor aid => Except.ok { a with authorId := aid }
  | _ => Except.error "Author must be an instance of Author"

/-- `Article.magazine` setter: validates, then replaces the reference. -/
def Article.setMagazine (a : Article) (v : PyVal) : Except String Article :=
  match v with
  | PyVal.vMagazine mid => Except.ok { a with magazineId := mid }
  | _ => Except.error "Magazine must be an instance of Magazine"

/-- `Author.__init__(self, name)`: name must be a string of nonzero
length.  The caller supplies the fresh identity `id` (Python's object
allocation). -/
def Author.init (id : Nat) (name : PyVal) : Except String Author :=
  match name with
  | PyVal.vStr n =>
    if n.length = 0 then
      Except.error "Name must be longer than 0 characters"
    else
      Except.ok ⟨id, n⟩
  | _ => Except.error "Name must be a string"

/-- `Author.name` setter: `pass` — the assignment is silently ignored. -/
def Author.setName (a : Author) (_v : PyVal) : Author := a

/-- `Magazine.__init__(self, name, category)`: four validation checks in
source order, then the fields are stored and `self` is appended to
`Magazine.all`. -/
def Magazine.init (s : RegState) (id : Nat) (name category : PyVal) :
    RegState × Except String Magazine :=
  match name with
  | PyVal.vStr n =>
    if 2 ≤ n.length ∧ n.length ≤ 16 then
      match category with
      | PyVal.vStr c =>
        if c.length = 0 then
          (s, Except.error "Category must be longer than 0 characters")
        else
          let m : Magazine := ⟨id, n, c⟩
          ({ s with magazineAll := s.magazineAll ++ [m] }, Except.ok m)
      | _ => (s, Except.error "Category must be a string")
    else
      (s, Except.error "Name must be between 2 and 16 characters")
  | _ => (s, Except.error "Name must be a string")

/-- `Magazine.name` setter: applies the new value only when it is a string
of length 2–16, otherwise silently ignores the assignment. -/
def Magazine.setName (m : Magazine) (v : PyVal) : Magazine :=
  match v with
  | PyVal.vStr n =>
    if 2 ≤ n.length ∧ n.length ≤ 16 then { m with name := n } else m
  | _ => m

/-- `Magazine.category` setter: applies the new value only when it is a
non-empty string, otherwise silently ignores the assignment. -/
def Magazine.setCategory (m : Magazine) (v : PyVal) : Magazine :=
  match v with
  | PyVal.vStr c =>
    if c.length > 0 then { m with category := c } else m
  | _ => m

/-- `Author.articles(self)`: the articles of `Article.all` whose `author`
is this author, in registry order. -/
def Author.articles (s : RegState) (a : Author) : List Article :=
  s.articleAll.filter (fun art => art.authorId == a.id)

/-- `Magazine.articles(self)`: the articles of `Article.all` whose
`magazine` is this magazine, in registry order. -/
def Magazine.articles (s : RegState) (m : Magazine) : List Article :=
  s.articleAll.filter (fun art => art.magazineId == m.id)

/-- First-occurrence deduplication: the embedding of `list(set(xs))`. -/
def firstSeen {α : Type} [DecidableEq α] : List α → List α
  | [] => []
  | x :: xs => x :: (firstSeen xs).filter (fun y => decide (y ≠ x))

/-- Dereference a magazine id through `Magazine.all` (every reference an
article holds is to a constructed magazine, so in reachable states the
lookup succeeds; the default is never used there). -/
def RegState.findMagazine (s : RegState) (mid : Nat) : Magazine :=
  (s.magazineAll.find? (fun m => m.id == mid)).getD ⟨0, "", ""⟩

/-- `Author.topic_areas(self)`: `None` when the author has no articles,
else the distinct categories of the articles' magazines. -/
def Author.topic_areas (s : RegState) (a : Author) : Option (List String) :=
  let articles := Author.articles s a
  if articles.isEmpty then none
  else
    some (firstSeen (articles.map
      (fun art => (s.findMagazine art.magazineId).category)))

/-- One step of `d[k] = d.get(k, 0) + 1` on an insertion-ordered dict:
increment the existing entry in place, or append a new `(k, 1)` entry. -/
def bump : List (Nat × Nat) → Nat → List (Nat × Nat)
  | [], k => [(k, 1)]
  | (k0, c) :: rest, k =>
    if k0 = k then (k0, c + 1) :: rest else (k0, c) :: bump rest k

/-- The counting loop: fold `bump` over the key sequence, starting from
the empty dict. -/
def countsOf (ks : List Nat) : List (Nat × Nat) :=
  ks.foldl bump []

/-- `Magazine.contributing_authors(self)`: count this magazine's articles
per author, keep the authors with count > 2, and return `None` when that
list is empty. -/
def Magazine.contributing_authors (s : RegState) (m : Magazine) :
    Option (List Nat) :=
  let author_counts := countsOf ((Magazine.articles s m).map Article.authorId)
  let result := (author_counts.filter (fun p => decide (p.2 > 2))).map Prod.fst
  if result.isEmpty then none else some result

/-- One comparison step of `max(d, key=d.get)`: the running best entry is
replaced only when the candidate's count is strictly greater. -/
def maxStep (best q : Nat × Nat) : Nat × Nat :=
  if q.2 > best.2 then q else best

/-- `max(d, key=d.get)` on a non-empty dict: the first key attaining the
maximal count (CPython's `max` replaces the running best only on a
strictly greater key value). -/
def maxByValue : List (Nat × Nat) → Option Nat
  | [] => none
  | p :: rest => some ((rest.foldl maxStep p).1)

/-- `Magazine.top_publisher()` (class method): `None` when `Article.all`
is empty, else the magazine with the most articles, counted over the
whole registry. -/
def Magazine.top_publisher (s : RegState) : Option Nat :=
  if s.articleAll.isEmpty then none
  else maxByValue (countsOf (s.articleAll.map Article.magazineId))

/-- The number of articles of `s.articleAll` whose magazine is `mid`. -/
def magCount (s : RegState) (mid : Nat) : Nat :=
  (s.articleAll.filter (fun art => art.magazineId == mid)).length

/-- The number of this magazine's articles written by author `aid`. -/
def authorCountIn (s : RegState) (m : Magazine) (aid : Nat) : Nat :=
  ((Magazine.articles s m).filter (fun art => art.authorId == aid)).length

/-- Valid `author` argument for `Article.__init__`. -/
def isAuthorVal (v : PyVal) : Prop := ∃ aid, v = PyVal.vAuthor aid

/-- Valid `magazine` argument for `Article.__init__`. -/
def isMagazineVal (v : PyVal) : Prop := ∃ mid, v = PyVal.vMagazine mid

/-- Valid `title` argument for `Article.__init__`: a string of length
5–50. -/
def isValidTitle (v : PyVal) : Prop :=
  ∃ t, v = PyVal.vStr t ∧ 5 ≤ t.length ∧ t.length ≤ 50

/-- Valid `name` argument for `Author.__init__`: a non-empty string. -/
def isValidAuthorName (v : PyVal) : Prop :=
  ∃ n, v = PyVal.vStr n ∧ 0 < n.length

/-- Valid magazine name: a string of length 2–16. -/
def isValidMagName (v : PyVal) : Prop :=
  ∃ n, v = PyVal.vStr n ∧ 2 ≤ n.length ∧ n.length ≤ 16

/-- Valid magazine category: a non-empty string. -/
def isValidMagCategory (v : PyVal) : Prop :=
  ∃ c, v = PyVal.vStr c ∧ 0 < c.length

/-- The data invariant of a constructed `Magazine`. -/
def MagazineValid (m : Magazine) : Prop :=
  2 ≤ m.name.length ∧ m.name.length ≤ 16 ∧ 0 < m.category.length

theorem firstSeen_mem {α : Type} [DecidableEq α] (l : List α) (x : α) :
    x ∈ firstSeen l ↔ x ∈ l := by
  induction l with
  | nil => simp [firstSeen]
  | cons y ys ih =>
    simp only [firstSeen, List.mem_cons, List.mem_filter, ih,
      decide_eq_true_eq]
    constructor
    · rintro (rfl | ⟨hy, _⟩)
      · exact Or.inl rfl
      · exact Or.inr hy
    · rintro (rfl | hy)
      · exact Or.inl rfl
      · by_cases hxy : x = y
        · exact Or.inl hxy
        · exact Or.inr ⟨hy, hxy⟩

theorem firstSeen_nodup {α : Type} [DecidableEq α] (l : List α) :
    (firstSeen l).Nodup := by
  induction l with
  | nil => exact List.nodup_nil
  | cons y ys ih =>
    simp only [firstSeen]
    rw [List.nodup_cons]
    constructor
    · simp [List.mem_filter]
    · exact List.Nodup.filter _ ih

theorem firstSeen_append_singleton {α : Type} [DecidableEq α] (l : List α) (k : α) :
    firstSeen (l ++ [k]) = if k ∈ l then firstSeen l else firstSeen l ++ [k] := by
  induction l with
  | nil => simp [firstSeen]
  | cons x xs ih =>
    by_cases hk : k ∈ xs
    · simp [firstSeen, ih, hk, List.mem_cons]
    · by_cases hkx : k = x
      · subst hkx
        simp [firstSeen, ih, hk, List.filter_append, List.mem_cons]
      · simp [firstSeen, ih, hk, hkx, List.filter_append,
          List.mem_cons, Ne.symm hkx]

theorem countsOf_append_singleton (ks : List Nat) (k : Nat) :
    countsOf (ks ++ [k]) = bump (countsOf ks) k := by
  rw [countsOf, countsOf, List.foldl_append]
  rfl

theorem bump_map_counts (g : Nat → Nat) (k : Nat) :
    ∀ (m : List Nat), m.Nodup →
      bump (m.map (fun x => (x, g x))) k =
        if k ∈ m then m.map (fun x => (x, if x = k then g x + 1 else g x))
        else m.map (fun x => (x, g x)) ++ [(k, 1)] := by
  intro m
  induction m with
  | nil => intro _; simp [bump]
  | cons x m ih =>
    intro hnd
    rw [List.nodup_cons] at hnd
    simp only [List.map_cons, bump]
    by_cases hxk : x = k
    · rw [if_pos hxk, if_pos (by simp [List.mem_cons, hxk.symm]), if_pos hxk]
      congr 1
      apply List.map_congr_left
      intro y hy
      have hyk : y ≠ k := fun he => hnd.1 (by rw [hxk, ← he]; exact hy)
      simp [hyk]
    · rw [if_neg hxk, ih hnd.2]
      by_cases hkm : k ∈ m
      · rw [if_pos hkm, if_pos (by simp [List.mem_cons, hkm]), if_neg hxk]
      · rw [if_neg hkm, if_neg (by simp [List.mem_cons, hkm, Ne.symm hxk])]
        rfl

theorem countsOf_eq (ks : List Nat) :
    countsOf ks = (firstSeen ks).map (fun k => (k, ks.count k)) := by
  induction ks using List.reverseRecOn with
  | nil => rfl
  | append_singleton l k ih =>
    rw [countsOf_append_singleton, ih, firstSeen_append_singleton,
      bump_map_counts _ _ _ (firstSeen_nodup l)]
    by_cases hk : k ∈ l
    · rw [if_pos ((firstSeen_mem l k).mpr hk), if_pos hk]
      apply List.map_congr_left
      intro x _
      by_cases hxk : x = k
      · subst hxk
        simp [List.count_append, List.count_singleton']
      · simp [List.count_append, List.count_singleton', hxk, Ne.symm hxk]
    · rw [if_neg (fun hc => hk ((firstSeen_mem l k).mp hc)), if_neg hk,
        List.map_append]
      congr 1
      · apply List.map_congr_left
        intro x hx
        have hxk : x ≠ k := fun he => hk (he ▸ (firstSeen_mem l x).mp hx)
        simp [List.count_append, List.count_singleton', Ne.symm hxk]
      · simp [List.count_append, List.count_singleton',
          List.count_eq_zero.mpr hk]

/-- C1: for every valid triple (Author instance, Magazine instance, title
string of length 5–50), `Article.__init__` appends exactly one new entry —
the new article — to `Article.all`, and afterwards that article is an
element of both `author.articles()` and `magazine.articles()`. -/
theorem article_init_appends_and_visible (s : RegState) (au : Author)
    (mag : Magazine) (t : String) (h5 : 5 ≤ t.length) (h50 : t.length ≤ 50) :
    ∃ art : Article,
      Article.init s (PyVal.vAuthor au.id) (PyVal.vMagazine mag.id) (PyVal.vStr t)
        = ({ s with articleAll := s.articleAll ++ [art] }, Except.ok art) ∧
      art ∈ Author.articles { s with articleAll := s.articleAll ++ [art] } au ∧
      art ∈ Magazine.articles { s with articleAll := s.articleAll ++ [art] } mag := by
  refine ⟨⟨au.id, mag.id, t⟩, ?_, ?_, ?_⟩
  · simp [Article.init, h5, h50]
  · simp [Author.articles, List.mem_filter]
  · simp [Magazine.articles, List.mem_filter]

theorem article_init_appends_and_visible_witness :
    5 ≤ "Hello".length ∧ "Hello".length ≤ 50 ∧
    ∃ art : Article,
      Article.init ⟨[], []⟩ (PyVal.vAuthor 0) (PyVal.vMagazine 1) (PyVal.vStr "Hello")
        = ({ articleAll := [] ++ [art], magazineAll := [] }, Except.ok art) ∧
      art ∈ Author.articles { articleAll := [] ++ [art], magazineAll := [] } ⟨0, "A"⟩ ∧
      art ∈ Magazine.articles { articleAll := [] ++ [art], magazineAll := [] } ⟨1, "MM", "Tech"⟩ :=
  ⟨by decide, by decide,
    article_init_appends_and_visible ⟨[], []⟩ ⟨0, "A"⟩ ⟨1, "MM", "Tech"⟩ "Hello"
      (by decide) (by decide)⟩

/-- C2: `Article.__init__` fails exactly when the author argument is not
an Author, or the magazine argument is not a Magazine, or the title is not
a string of length 5–50 (a shorter title such as "Hi" fails, the
5-character "Hello" succeeds); and on failure `Article.all` is left
unchanged. -/
theorem article_init_error_iff (s : RegState) (a m t : PyVal) :
    ((∃ e, (Article.init s a m t).2 = Except.error e) ↔
      ¬ (isAuthorVal a ∧ isMagazineVal m ∧ isValidTitle t)) ∧
    (∀ e, (Article.init s a m t).2 = Except.error e → (Article.init s a m t).1 = s) := by
  cases a <;> cases m <;> cases t <;>
    simp [Article.init, isAuthorVal, isMagazineVal, isValidTitle]
  split <;> simp_all

theorem article_init_error_iff_witness :
    (∃ e, (Article.init ⟨[], []⟩ (PyVal.vAuthor 0) (PyVal.vMagazine 1)
      (PyVal.vStr "Hi")).2 = Except.error e) ∧
    (Article.init ⟨[], []⟩ (PyVal.vAuthor 0) (PyVal.vMagazine 1)
      (PyVal.vStr "Hi")).1 = ⟨[], []⟩ := by
  have h := article_init_error_iff ⟨[], []⟩ (PyVal.vAuthor 0) (PyVal.vMagazine 1)
    (PyVal.vStr "Hi")
  have he : (∃ e, (Article.init ⟨[], []⟩ (PyVal.vAuthor 0) (PyVal.vMagazine 1)
      (PyVal.vStr "Hi")).2 = Except.error e) := by
    apply h.1.mpr
    simp [isAuthorVal, isMagazineVal, isValidTitle]
    decide
  exact ⟨he, by obtain ⟨e, hee⟩ := he; exact h.2 e hee⟩

/-- C5: the `Article.title` and `Author.name` setters are unconditional
silent no-ops: the whole object is unchanged afterwards, for every
assigned value, and no error is raised (the setters are total). -/
theorem title_and_author_name_setters_noop (a : Article) (au : Author) (v : PyVal) :
    Article.setTitle a v = a ∧ Author.setName au v = au :=
  ⟨rfl, rfl⟩

/-- C6: a constructed magazine satisfies the invariant (name a string of
length 2–16, category non-empty), both setters preserve the invariant,
invalid assignments are silently ignored (the whole object is retained
unchanged, no error raised — the setters are total), and valid
assignments replace the value. -/
theorem magazine_validation_invariant :
    (∀ (s : RegState) (id : Nat) (n c : PyVal) (m : Magazine),
      (Magazine.init s id n c).2 = Except.ok m → MagazineValid m) ∧
    (∀ (m : Magazine) (v : PyVal),
      MagazineValid m → MagazineValid (Magazine.setName m v)) ∧
    (∀ (m : Magazine) (v : PyVal),
      MagazineValid m → MagazineValid (Magazine.setCategory m v)) ∧
    (∀ (m : Magazine) (v : PyVal),
      ¬ isValidMagName v → Magazine.setName m v = m) ∧
    (∀ (m : Magazine) (v : PyVal),
      ¬ isValidMagCategory v → Magazine.setCategory m v = m) ∧
    (∀ (m : Magazine) (n : String), isValidMagName (PyVal.vStr n) →
      Magazine.setName m (PyVal.vStr n) = { m with name := n }) ∧
    (∀ (m : Magazine) (c : String), isValidMagCategory (PyVal.vStr c) →
      Magazine.setCategory m (PyVal.vStr c) = { m with category := c }) := by
  refine ⟨?_, ?_, ?_, ?_, ?_, ?_, ?_⟩
  · intro s id n c m h
    cases n with
    | vStr nv =>
      cases c with
      | vStr cv =>
        simp only [Magazine.init] at h
        by_cases h2 : 2 ≤ nv.length ∧ nv.length ≤ 16
        · rw [if_pos h2] at h
          by_cases hc : cv.length = 0
          · rw [if_pos hc] at h; simp at h
          · rw [if_neg hc] at h
            simp at h
            subst h
            exact ⟨h2.1, h2.2, Nat.pos_of_ne_zero hc⟩
        · rw [if_neg h2] at h; simp at h
      | vAuthor i => simp only [Magazine.init] at h; split at h <;> simp at h
      | vMagazine i => simp only [Magazine.init] at h; split at h <;> simp at h
      | vInt i => simp only [Magazine.init] at h; split at h <;> simp at h
      | vNone => simp only [Magazine.init] at h; split at h <;> simp at h
    | vAuthor i => simp [Magazine.init] at h
    | vMagazine i => simp [Magazine.init] at h
    | vInt i => simp [Magazine.init] at h
    | vNone => simp [Magazine.init] at h
  · intro m v hm
    have hm' : 2 ≤ m.name.length ∧ m.name.length ≤ 16 ∧ 0 < m.category.length := hm
    cases v with
    | vStr n =>
      show MagazineValid
        (if 2 ≤ n.length ∧ n.length ≤ 16 then { m with name := n } else m)
      by_cases hn : 2 ≤ n.length ∧ n.length ≤ 16
      · rw [if_pos hn]; exact ⟨hn.1, hn.2, hm'.2.2⟩
      · rw [if_neg hn]; exact hm
    | vAuthor i => exact hm
    | vMagazine i => exact hm
    | vInt i => exact hm
    | vNone => exact hm
  · intro m v hm
    have hm' : 2 ≤ m.name.length ∧ m.name.length ≤ 16 ∧ 0 < m.category.length := hm
    cases v with
    | vStr c =>
      show MagazineValid
        (if c.length > 0 then { m with category := c } else m)
      by_cases hc : c.length > 0
      · rw [if_pos hc]; exact ⟨hm'.1, hm'.2.1, hc⟩
      · rw [if_neg hc]; exact hm
    | vAuthor i => exact hm
    | vMagazine i => exact hm
    | vInt i => exact hm
    | vNone => exact hm
  · intro m v hv
    cases v with
    | vStr n =>
      have hn : ¬ (2 ≤ n.length ∧ n.length ≤ 16) :=
        fun hn => hv ⟨n, rfl, hn.1, hn.2⟩
      simp [Magazine.setName, hn]
    | vAuthor i => rfl
    | vMagazine i => rfl
    | vInt i => rfl
    | vNone => rfl
  · intro m v hv
    cases v with
    | vStr c =>
      have hc : ¬ (c.length > 0) := fun hc => hv ⟨c, rfl, hc⟩
      simp [Magazine.setCategory, hc]
    | vAuthor i => rfl
    | vMagazine i => rfl
    | vInt i => rfl
    | vNone => rfl
  · intro m n hv
    obtain ⟨n', hn', h2, h16⟩ := hv
    cases hn'
    simp [Magazine.setName, h2, h16]
  · intro m c hv
    obtain ⟨c', hc', hpos⟩ := hv
    cases hc'
    simp [Magazine.setCategory, hpos]

theorem magazine_validation_invariant_witness :
    MagazineValid (Magazine.setName ⟨0, "MM", "Tech"⟩ (PyVal.vInt 7)) ∧
    Magazine.setName ⟨0, "MM", "Tech"⟩ (PyVal.vInt 7) = ⟨0, "MM", "Tech"⟩ :=
  ⟨magazine_validation_invariant.2.1 ⟨0, "MM", "Tech"⟩ (PyVal.vInt 7)
     (by simp only [MagazineValid]; decide),
   magazine_validation_invariant.2.2.2.1 ⟨0, "MM", "Tech"⟩ (PyVal.vInt 7)
     (by simp [isValidMagName])⟩

/-- C7 counterexample: `Magazine("M", "Tech")` does not construct — the
one-character name fails the 2–16 length validation, so the scenario's
premise is impossible. -/
theorem magazine_short_name_construction_fails :
    (Magazine.init ⟨[], []⟩ 0 (PyVal.vStr "M") (PyVal.vStr "Tech")).2
      = Except.error "Name must be between 2 and 16 characters" := by
  rfl

/-- C7 amended: after constructing `Magazine("MM", "Tech")` (a valid
2-character name; the spec's `"M"` fails construction), assigning the
21-character name `"ThisIsWayTooLongAName"` leaves the name `"MM"`, and
subsequently assigning `"OK"` changes the name to `"OK"`. -/
theorem magazine_name_update_scenario :
    (Magazine.init ⟨[], []⟩ 0 (PyVal.vStr "MM") (PyVal.vStr "Tech")).2
      = Except.ok ⟨0, "MM", "Tech"⟩ ∧
    Magazine.setName ⟨0, "MM", "Tech"⟩ (PyVal.vStr "ThisIsWayTooLongAName")
      = ⟨0, "MM", "Tech"⟩ ∧
    (Magazine.setName ⟨0, "MM", "Tech"⟩ (PyVal.vStr "ThisIsWayTooLongAName")).name
      = "MM" ∧
    Magazine.setName ⟨0, "MM", "Tech"⟩ (PyVal.vStr "OK") = ⟨0, "OK", "Tech"⟩ := by
  refine ⟨rfl, ?_, ?_, ?_⟩ <;> rfl

/-- C8: `Author.__init__` fails exactly when the name is not a string or
is empty (`Author("")` fails, `Author("A")` succeeds); `Magazine.__init__`
fails exactly when the name is not a string of length 2–16 or the category
is not a non-empty string. -/
theorem author_magazine_init_error_iff :
    (∀ (id : Nat) (v : PyVal),
      (∃ e, Author.init id v = Except.error e) ↔ ¬ isValidAuthorName v) ∧
    (∀ (s : RegState) (id : Nat) (n c : PyVal),
      (∃ e, (Magazine.init s id n c).2 = Except.error e) ↔
        ¬ (isValidMagName n ∧ isValidMagCategory c)) := by
  constructor
  · intro id v
    cases v with
    | vStr n =>
      by_cases hn : n.length = 0
      · simp [Author.init, hn, isValidAuthorName]
      · simp [Author.init, hn, isValidAuthorName]
        try omega
    | vAuthor i => simp [Author.init, isValidAuthorName]
    | vMagazine i => simp [Author.init, isValidAuthorName]
    | vInt i => simp [Author.init, isValidAuthorName]
    | vNone => simp [Author.init, isValidAuthorName]
  · intro s id n c
    cases n with
    | vStr nv =>
      by_cases h2 : 2 ≤ nv.length ∧ nv.length ≤ 16
      · cases c with
        | vStr cv =>
          by_cases hc : cv.length = 0
          · simp [Magazine.init, h2, hc, isValidMagName, isValidMagCategory]
          · simp [Magazine.init, h2, hc, isValidMagName, isValidMagCategory]
            try omega
        | vAuthor i => simp [Magazine.init, h2, isValidMagName, isValidMagCategory]
        | vMagazine i => simp [Magazine.init, h2, isValidMagName, isValidMagCategory]
        | vInt i => simp [Magazine.init, h2, isValidMagName, isValidMagCategory]
        | vNone => simp [Magazine.init, h2, isValidMagName, isValidMagCategory]
      · simp [Magazine.init, h2, isValidMagName]
    | vAuthor i => simp [Magazine.init, isValidMagName]
    | vMagazine i => simp [Magazine.init, isValidMagName]
    | vInt i => simp [Magazine.init, isValidMagName]
    | vNone => simp [Magazine.init, isValidMagName]

theorem author_magazine_init_error_iff_witness :
    (∃ e, Author.init 0 (PyVal.vStr "") = Except.error e) ∧
    ¬ (∃ e, Author.init 1 (PyVal.vStr "A") = Except.error e) := by
  constructor
  · exact (author_magazine_init_error_iff.1 0 (PyVal.vStr "")).mpr
      (by simp [isValidAuthorName])
  · intro he
    have hne := (author_magazine_init_error_iff.1 1 (PyVal.vStr "A")).mp he
    apply hne
    show ∃ n, PyVal.vStr "A" = PyVal.vStr n ∧ 0 < n.length
    exact ⟨"A", rfl, by decide⟩

theorem count_map_eq_filter_length {α : Type} (f : α → Nat) (l : List α) (k : Nat) :
    (l.map f).count k = (l.filter (fun x => f x == k)).length := by
  rw [List.count, List.countP_map, List.countP_eq_length_filter]
  rfl

theorem authorCountIn_eq_count (s : RegState) (m : Magazine) (aid : Nat) :
    authorCountIn s m aid
      = ((Magazine.articles s m).map Article.authorId).count aid := by
  rw [authorCountIn, count_map_eq_filter_length]

theorem magCount_eq_count (s : RegState) (mid : Nat) :
    magCount s mid = (s.articleAll.map Article.magazineId).count mid := by
  rw [magCount, count_map_eq_filter_length]

theorem mem_contributing_result (ks : List Nat) (aid : Nat) :
    (aid ∈ ((countsOf ks).filter (fun p => decide (p.2 > 2))).map Prod.fst)
      ↔ 2 < ks.count aid := by
  rw [countsOf_eq]
  constructor
  · intro h
    simp only [List.mem_map, List.mem_filter, decide_eq_true_eq] at h
    obtain ⟨p, ⟨⟨k, hk, rfl⟩, h2⟩, rfl⟩ := h
    exact h2
  · intro h
    have hmem : aid ∈ firstSeen ks := (firstSeen_mem ks aid).mpr
      (List.count_pos_iff.mp (by omega))
    refine List.mem_map.mpr ⟨(aid, ks.count aid), ?_, rfl⟩
    exact List.mem_filter.mpr
      ⟨List.mem_map.mpr ⟨aid, hmem, rfl⟩, by simpa using h⟩

/-- C3: `contributing_authors()` returns `None` exactly when no author has
strictly more than 2 articles in this magazine; otherwise the returned
list contains exactly the authors whose article count over this magazine's
articles is strictly greater than 2 (so an author with exactly 3 articles
appears). -/
theorem contributing_authors_spec (s : RegState) (m : Magazine) :
    (Magazine.contributing_authors s m = none ↔
      ∀ aid, authorCountIn s m aid ≤ 2) ∧
    (∀ l, Magazine.contributing_authors s m = some l →
      ∀ aid, aid ∈ l ↔ 2 < authorCountIn s m aid) := by
  have hcnt : ∀ aid, authorCountIn s m aid
      = ((Magazine.articles s m).map Article.authorId).count aid :=
    fun aid => authorCountIn_eq_count s m aid
  have hmem := fun aid => mem_contributing_result
    ((Magazine.articles s m).map Article.authorId) aid
  simp only [Magazine.contributing_authors]
  by_cases hres : (((countsOf ((Magazine.articles s m).map Article.authorId)).filter
      (fun p => decide (p.2 > 2))).map Prod.fst).isEmpty
  · rw [if_pos hres]
    refine ⟨⟨fun _ aid => ?_, fun _ => rfl⟩, fun l hl => (by cases hl)⟩
    rw [hcnt aid]
    by_contra hgt
    push_neg at hgt
    have hin := (hmem aid).mpr hgt
    rw [List.isEmpty_iff] at hres
    rw [hres] at hin
    cases hin
  · rw [if_neg hres]
    refine ⟨⟨fun h => (by cases h), fun hall => ?_⟩, fun l hl => ?_⟩
    · exfalso
      rw [List.isEmpty_iff] at hres
      obtain ⟨aid, haid⟩ := List.exists_mem_of_ne_nil _ hres
      have := (hmem aid).mp haid
      have hle := hall aid
      rw [hcnt aid] at hle
      omega
    · injection hl with hl
      subst hl
      intro aid
      rw [hcnt aid]
      exact hmem aid

theorem contributing_authors_spec_witness :
    Magazine.contributing_authors
        ⟨[⟨0, 1, "Hello"⟩, ⟨0, 1, "World"⟩, ⟨0, 1, "Again"⟩], [⟨1, "MM", "Tech"⟩]⟩
        ⟨1, "MM", "Tech"⟩ = some [0] ∧
    (0 ∈ [0] ↔ 2 < authorCountIn
        ⟨[⟨0, 1, "Hello"⟩, ⟨0, 1, "World"⟩, ⟨0, 1, "Again"⟩], [⟨1, "MM", "Tech"⟩]⟩
        ⟨1, "MM", "Tech"⟩ 0) :=
  ⟨by decide,
   (contributing_authors_spec
       ⟨[⟨0, 1, "Hello"⟩, ⟨0, 1, "World"⟩, ⟨0, 1, "Again"⟩], [⟨1, "MM", "Tech"⟩]⟩
       ⟨1, "MM", "Tech"⟩).2 [0] (by decide) 0⟩

theorem foldl_maxStep_split :
    ∀ (l : List (Nat × Nat)) (b : Nat × Nat),
      ∃ l₁ l₂, b :: l = l₁ ++ (l.foldl maxStep b) :: l₂ ∧
        (∀ q ∈ l₁, q.2 < (l.foldl maxStep b).2) ∧
        (∀ q ∈ l₂, q.2 ≤ (l.foldl maxStep b).2) := by
  intro l
  induction l with
  | nil =>
    intro b
    exact ⟨[], [], rfl, by simp, by simp⟩
  | cons p l ih =>
    intro b
    rw [List.foldl_cons]
    obtain ⟨l₁', l₂', hsplit, hlt, hle⟩ := ih (maxStep b p)
    have hble : (maxStep b p).2 ≤ (l.foldl maxStep (maxStep b p)).2 := by
      cases l₁' with
      | nil =>
        rw [List.nil_append] at hsplit
        injection hsplit with h1 _
        exact Nat.le_of_eq (congrArg Prod.snd h1)
      | cons w t =>
        injection hsplit with h1 _
        have hw := hlt w (List.mem_cons_self w t)
        have h2 : (maxStep b p).2 = w.2 := congrArg Prod.snd h1
        rw [h2]
        exact Nat.le_of_lt hw
    by_cases hp : p.2 > b.2
    · have hb' : maxStep b p = p := if_pos hp
      refine ⟨b :: l₁', l₂', ?_, ?_, hle⟩
      · rw [List.cons_append, ← hsplit, hb']
      · intro q hq
        rcases List.mem_cons.mp hq with rfl | hq'
        · exact Nat.lt_of_lt_of_le (Nat.lt_of_lt_of_le hp (by rw [hb'])) hble
        · exact hlt q hq'
    · have hb' : maxStep b p = b := if_neg hp
      rw [hb'] at hsplit hlt hle hble ⊢
      cases l₁' with
      | nil =>
        rw [List.nil_append] at hsplit
        injection hsplit with h1 h2
        refine ⟨[], p :: l, ?_, ?_, ?_⟩
        · rw [List.nil_append, ← h1]
        · intro q hq
          cases hq
        · intro q hq
          rcases List.mem_cons.mp hq with rfl | hq'
          · rw [← h1]
            exact Nat.le_of_not_lt hp
          · rw [h2] at hq'
            exact hle q hq'
      | cons w t =>
        injection hsplit with h1 h2
        have hbw : b.2 < (l.foldl maxStep b).2 := by
          have hw := hlt w (List.mem_cons_self w t)
          rw [← h1] at hw
          exact hw
        refine ⟨b :: p :: t, l₂', ?_, ?_, hle⟩
        · exact congrArg (fun z => b :: p :: z) h2
        · intro q hq
          rcases List.mem_cons.mp hq with rfl | hq'
          · exact hbw
          · rcases List.mem_cons.mp hq' with rfl | hq''
            · exact Nat.lt_of_le_of_lt (Nat.le_of_not_lt hp) hbw
            · exact hlt q (List.mem_cons.mpr (Or.inr hq''))

theorem map_eq_append_cons {α β : Type} (f : α → β) :
    ∀ (l : List α) (a : List β) (y : β) (b : List β), l.map f = a ++ y :: b →
      ∃ a' x b', l = a' ++ x :: b' ∧ a'.map f = a ∧ f x = y ∧ b'.map f = b := by
  intro l
  induction l with
  | nil =>
    intro a y b h
    rw [List.map_nil] at h
    cases a <;> simp at h
  | cons z l ih =>
    intro a y b h
    rw [List.map_cons] at h
    cases a with
    | nil =>
      rw [List.nil_append] at h
      injection h with h1 h2
      exact ⟨[], z, l, rfl, rfl, h1, h2⟩
    | cons w a =>
      rw [List.cons_append] at h
      injection h with h1 h2
      obtain ⟨a', x, b', rfl, ha, hx, hb⟩ := ih a y b h2
      exact ⟨z :: a', x, b', rfl, by rw [List.map_cons, ha, h1], hx, hb⟩

theorem filter_eq_append_cons {α : Type} (p : α → Bool) :
    ∀ (l a b : List α) (x : α), l.filter p = a ++ x :: b →
      ∃ a' b', l = a' ++ x :: b' ∧ b'.filter p = b ∧ p x = true := by
  intro l
  induction l with
  | nil =>
    intro a b x h
    rw [List.filter_nil] at h
    cases a <;> simp at h
  | cons z l ih =>
    intro a b x h
    rw [List.filter_cons] at h
    by_cases hz : p z
    · rw [if_pos hz] at h
      cases a with
      | nil =>
        rw [List.nil_append] at h
        injection h with h1 h2
        subst h1
        exact ⟨[], l, rfl, h2, hz⟩
      | cons w a =>
        rw [List.cons_append] at h
        injection h with h1 h2
        obtain ⟨a', b', rfl, hb, hx⟩ := ih a b x h2
        exact ⟨z :: a', b', rfl, hb, hx⟩
    · rw [if_neg hz] at h
      obtain ⟨a', b', rfl, hb, hx⟩ := ih a b x h
      exact ⟨z :: a', b', rfl, hb, hx⟩

theorem firstSeen_order {α : Type} [DecidableEq α] :
    ∀ (l m₁ m₂ : List α) (x y : α),
      firstSeen l = m₁ ++ x :: m₂ → y ∈ m₂ →
      l.findIdx (fun z => z == x) ≤ l.findIdx (fun z => z == y) := by
  intro l
  induction l with
  | nil =>
    intro m₁ m₂ x y h hy
    simp only [firstSeen] at h
    cases m₁ <;> simp at h
  | cons k l ih =>
    intro m₁ m₂ x y h hy
    simp only [firstSeen] at h
    cases m₁ with
    | nil =>
      rw [List.nil_append] at h
      injection h with h1 _
      subst h1
      rw [List.findIdx_cons]
      simp
    | cons w t =>
      rw [List.cons_append] at h
      injection h with h1 h2
      obtain ⟨a', b', hfs, hb, hpx⟩ :=
        filter_eq_append_cons (fun z => decide (z ≠ k)) (firstSeen l) t m₂ x h2
      rw [← hb] at hy
      have hy' := List.mem_filter.mp hy
      have hidx := ih a' b' x y hfs hy'.1
      have hxk : ¬ (k == x) = true := by
        simp only [decide_eq_true_eq] at hpx
        simp [Ne.symm hpx]
      have hyk : ¬ (k == y) = true := by
        have := hy'.2
        simp only [decide_eq_true_eq] at this
        simp [Ne.symm this]
      rw [List.findIdx_cons, List.findIdx_cons,
        Bool.cond_eq_if, Bool.cond_eq_if, if_neg hxk, if_neg hyk]
      exact Nat.succ_le_succ hidx

theorem findIdx_map_eq {α β : Type} (f : α → β) (p : β → Bool) (l : List α) :
    (l.map f).findIdx p = l.findIdx (fun x => p (f x)) := by
  induction l with
  | nil => rfl
  | cons x xs ih => simp [List.findIdx_cons, ih]

theorem findIdx_magazineId (l : List Article) (mid : Nat) :
    l.findIdx (fun art => art.magazineId == mid)
      = (l.map Article.magazineId).findIdx (fun z => z == mid) := by
  rw [findIdx_map_eq]

theorem maxByValue_counts_spec (ks : List Nat) (mid : Nat)
    (h : maxByValue (countsOf ks) = some mid) :
    mid ∈ ks ∧ (∀ k, ks.count k ≤ ks.count mid) ∧
    (∀ k, ks.count k = ks.count mid →
      ks.findIdx (fun z => z == mid) ≤ ks.findIdx (fun z => z == k)) := by
  rcases hc : countsOf ks with _ | ⟨p, rest⟩
  · rw [hc] at h
    cases h
  · rw [hc] at h
    simp only [maxByValue, Option.some.injEq] at h
    obtain ⟨l₁, l₂, hsplit, hlt, hle⟩ := foldl_maxStep_split rest p
    rw [← hc] at hsplit
    have hr_mem : rest.foldl maxStep p ∈ countsOf ks := by
      rw [hsplit]
      exact List.mem_append.mpr (Or.inr (List.mem_cons_self _ _))
    have hr_eq : rest.foldl maxStep p = (mid, ks.count mid) := by
      rw [countsOf_eq] at hr_mem
      obtain ⟨k0, _, hk0⟩ := List.mem_map.mp hr_mem
      have : k0 = mid := by rw [← h, ← hk0]
      rw [← hk0, this]
    have hmid_fs : mid ∈ firstSeen ks := by
      have := hr_mem
      rw [countsOf_eq] at this
      obtain ⟨k0, hk0m, hk0⟩ := List.mem_map.mp this
      have hk0mid : k0 = mid := by rw [← h, ← hk0]
      exact hk0mid ▸ hk0m
    have hmid_mem : mid ∈ ks := (firstSeen_mem ks mid).mp hmid_fs
    have hmax : ∀ k, ks.count k ≤ ks.count mid := by
      intro k
      by_cases hk : k ∈ ks
      · have hin : (k, ks.count k) ∈ countsOf ks := by
          rw [countsOf_eq]
          exact List.mem_map.mpr ⟨k, (firstSeen_mem ks k).mpr hk, rfl⟩
        rw [hsplit] at hin
        rcases List.mem_append.mp hin with hin1 | hin2
        · have := hlt _ hin1
          rw [hr_eq] at this
          exact Nat.le_of_lt this
        · rcases List.mem_cons.mp hin2 with heq | hin3
          · exact Nat.le_of_eq (congrArg Prod.snd (heq.trans hr_eq))
          · have := hle _ hin3
            rw [hr_eq] at this
            exact this
      · rw [List.count_eq_zero.mpr hk]
        exact Nat.zero_le _
    refine ⟨hmid_mem, hmax, ?_⟩
    intro k hkeq
    have hkpos : 0 < ks.count k := by
      rw [hkeq]
      exact List.count_pos_iff.mpr hmid_mem
    have hk_mem : k ∈ ks := List.count_pos_iff.mp hkpos
    have hin : (k, ks.count k) ∈ countsOf ks := by
      rw [countsOf_eq]
      exact List.mem_map.mpr ⟨k, (firstSeen_mem ks k).mpr hk_mem, rfl⟩
    rw [hsplit] at hin
    rcases List.mem_append.mp hin with hin1 | hin2
    · exfalso
      have := hlt _ hin1
      rw [hr_eq] at this
      omega
    · rcases List.mem_cons.mp hin2 with heq | hin3
      · have : k = mid := congrArg Prod.fst (heq.trans hr_eq)
        rw [this]
      · have hsplit' : (firstSeen ks).map (fun k => (k, ks.count k))
            = l₁ ++ (rest.foldl maxStep p) :: l₂ := by
          rw [← countsOf_eq, hsplit]
        obtain ⟨m₁, x, m₂, hfs, _, hfx, hm₂⟩ :=
          map_eq_append_cons _ (firstSeen ks) l₁ (rest.foldl maxStep p) l₂ hsplit'
        have hx_mid : x = mid := by
          have := hfx.trans hr_eq
          exact congrArg Prod.fst this
        have hk_m₂ : k ∈ m₂ := by
          rw [← hm₂] at hin3
          obtain ⟨k', hk'm, hk'⟩ := List.mem_map.mp hin3
          have : k' = k := congrArg Prod.fst hk'
          exact this ▸ hk'm
        have hord := firstSeen_order ks m₁ m₂ x k hfs hk_m₂
        rw [hx_mid] at hord
        exact hord

theorem maxByValue_countsOf_ne_none (ks : List Nat) (hks : ks ≠ []) :
    maxByValue (countsOf ks) ≠ none := by
  rw [countsOf_eq]
  cases ks with
  | nil => exact absurd rfl hks
  | cons x xs => simp [firstSeen, maxByValue]

/-- C4: `Magazine.top_publisher()` returns `None` exactly when
`Article.all` is empty; otherwise it returns a magazine that appears on at
least one article and whose article count over the whole registry is
maximal. -/
theorem top_publisher_spec (s : RegState) :
    (Magazine.top_publisher s = none ↔ s.articleAll = []) ∧
    (∀ mid, Magazine.top_publisher s = some mid →
      (∃ art ∈ s.articleAll, art.magazineId = mid) ∧
      (∀ mid', magCount s mid' ≤ magCount s mid)) := by
  constructor
  · rw [Magazine.top_publisher]
    by_cases he : s.articleAll.isEmpty
    · rw [if_pos he, List.isEmpty_iff] at *
      simp [he]
    · rw [if_neg he]
      rw [List.isEmpty_iff] at he
      constructor
      · intro hcontr
        exact absurd hcontr
          (maxByValue_countsOf_ne_none _ (by simpa using he))
      · intro hnil
        exact absurd hnil he
  · intro mid h
    rw [Magazine.top_publisher] at h
    by_cases he : s.articleAll.isEmpty
    · rw [if_pos he] at h
      cases h
    · rw [if_neg he] at h
      obtain ⟨hmem, hmax, _⟩ := maxByValue_counts_spec _ mid h
      constructor
      · obtain ⟨art, hart, harteq⟩ := List.mem_map.mp hmem
        exact ⟨art, hart, harteq⟩
      · intro mid'
        rw [magCount_eq_count, magCount_eq_count]
        exact hmax mid'

theorem top_publisher_spec_witness :
    Magazine.top_publisher
        ⟨[⟨0, 0, "Hello"⟩, ⟨0, 0, "World"⟩, ⟨0, 0, "Again"⟩, ⟨0, 1, "Fourt"⟩], []⟩
      = some 0 ∧
    magCount ⟨[⟨0, 0, "Hello"⟩, ⟨0, 0, "World"⟩, ⟨0, 0, "Again"⟩, ⟨0, 1, "Fourt"⟩], []⟩ 1
      ≤ magCount ⟨[⟨0, 0, "Hello"⟩, ⟨0, 0, "World"⟩, ⟨0, 0, "Again"⟩, ⟨0, 1, "Fourt"⟩], []⟩ 0 :=
  ⟨by decide,
   ((top_publisher_spec
       ⟨[⟨0, 0, "Hello"⟩, ⟨0, 0, "World"⟩, ⟨0, 0, "Again"⟩, ⟨0, 1, "Fourt"⟩], []⟩).2
     0 (by decide)).2 1⟩

/-- C10: on a non-empty registry `top_publisher()` is deterministic even on
ties: the returned magazine's count is maximal, and among the magazines
attaining that count the returned one is the one whose first article
occurs earliest in `Article.all` (the first-seen order of the dict
aggregation). -/
theorem top_publisher_first_seen_tie_break (s : RegState) (mid : Nat)
    (h : Magazine.top_publisher s = some mid) :
    (∀ mid', magCount s mid' ≤ magCount s mid) ∧
    (∀ mid', magCount s mid' = magCount s mid →
      s.articleAll.findIdx (fun art => art.magazineId == mid)
        ≤ s.articleAll.findIdx (fun art => art.magazineId == mid')) := by
  rw [Magazine.top_publisher] at h
  by_cases he : s.articleAll.isEmpty
  · rw [if_pos he] at h
    cases h
  · rw [if_neg he] at h
    obtain ⟨_, hmax, htie⟩ := maxByValue_counts_spec _ mid h
    constructor
    · intro mid'
      rw [magCount_eq_count, magCount_eq_count]
      exact hmax mid'
    · intro mid' heq
      rw [magCount_eq_count, magCount_eq_count] at heq
      have hord := htie mid' heq
      rw [findIdx_magazineId, findIdx_magazineId]
      exact hord

theorem top_publisher_first_seen_tie_break_witness :
    Magazine.top_publisher
        ⟨[⟨0, 0, "Hello"⟩, ⟨0, 1, "World"⟩, ⟨0, 0, "Again"⟩, ⟨0, 1, "Fourt"⟩], []⟩
      = some 0 ∧
    magCount ⟨[⟨0, 0, "Hello"⟩, ⟨0, 1, "World"⟩, ⟨0, 0, "Again"⟩, ⟨0, 1, "Fourt"⟩], []⟩ 1
      = magCount ⟨[⟨0, 0, "Hello"⟩, ⟨0, 1, "World"⟩, ⟨0, 0, "Again"⟩, ⟨0, 1, "Fourt"⟩], []⟩ 0 ∧
    (⟨[⟨0, 0, "Hello"⟩, ⟨0, 1, "World"⟩, ⟨0, 0, "Again"⟩, ⟨0, 1, "Fourt"⟩], []⟩ :
        RegState).articleAll.findIdx (fun art => art.magazineId == 0)
      ≤ (⟨[⟨0, 0, "Hello"⟩, ⟨0, 1, "World"⟩, ⟨0, 0, "Again"⟩, ⟨0, 1, "Fourt"⟩], []⟩ :
        RegState).articleAll.findIdx (fun art => art.magazineId == 1) :=
  ⟨by decide, by decide,
   (top_publisher_first_seen_tie_break
       ⟨[⟨0, 0, "Hello"⟩, ⟨0, 1, "World"⟩, ⟨0, 0, "Again"⟩, ⟨0, 1, "Fourt"⟩], []⟩
       0 (by decide)).2 1 (by decide)⟩

theorem find_magazine_eq (ms : List Magazine) (mg : Magazine)
    (hnd : (ms.map Magazine.id).Nodup) (hmem : mg ∈ ms) :
    ms.find? (fun m => m.id == mg.id) = some mg := by
  induction ms with
  | nil => cases hmem
  | cons m0 ms ih =>
    rw [List.map_cons, List.nodup_cons] at hnd
    by_cases h0 : m0.id = mg.id
    · have hm : mg = m0 := by
        rcases List.mem_cons.mp hmem with h | h
        · exact h
        · exfalso
          apply hnd.1
          rw [h0]
          exact List.mem_map.mpr ⟨mg, h, rfl⟩
      simp [List.find?_cons, h0, hm]
    · have hm : mg ∈ ms := by
        rcases List.mem_cons.mp hmem with h | h
        · exact absurd (congrArg Magazine.id h).symm h0
        · exact h
      simp only [List.find?_cons]
      rw [show (m0.id == mg.id) = false by simp [h0]]
      exact ih hnd.2 hm

theorem findMagazine_eq (s : RegState) (mid : Nat) (mg : Magazine)
    (hnd : (s.magazineAll.map Magazine.id).Nodup)
    (hmem : mg ∈ s.magazineAll) (hid : mg.id = mid) :
    s.findMagazine mid = mg := by
  rw [RegState.findMagazine, ← hid,
    find_magazine_eq s.magazineAll mg hnd hmem]
  rfl

/-- C9: in a state whose registries are well formed (each article's
magazine reference resolves to a registered magazine, and magazine
identities are distinct), `topic_areas()` returns `None` exactly when the
author has no articles; otherwise it returns a duplicate-free list whose
members are exactly the categories of the magazines of the author's
articles, and an author with exactly one article gets the one-element list
holding that article's magazine's category. -/
theorem topic_areas_spec (s : RegState) (a : Author)
    (hcov : ∀ art ∈ s.articleAll, ∃ mg ∈ s.magazineAll, mg.id = art.magazineId)
    (hnd : (s.magazineAll.map Magazine.id).Nodup) :
    (Author.topic_areas s a = none ↔ Author.articles s a = []) ∧
    (∀ l, Author.topic_areas s a = some l →
      l.Nodup ∧
      (∀ cat, cat ∈ l ↔ ∃ art ∈ Author.articles s a,
        ∃ mg ∈ s.magazineAll, mg.id = art.magazineId ∧ mg.category = cat) ∧
      (∀ art, Author.articles s a = [art] →
        ∃ mg ∈ s.magazineAll, mg.id = art.magazineId ∧ l = [mg.category])) := by
  have hsub : ∀ art, art ∈ Author.articles s a → art ∈ s.articleAll :=
    fun art h => List.mem_of_mem_filter h
  simp only [Author.topic_areas]
  by_cases he : (Author.articles s a).isEmpty
  · rw [if_pos he]
    rw [List.isEmpty_iff] at he
    exact ⟨⟨fun _ => he, fun _ => rfl⟩, fun l hl => (by cases hl)⟩
  · rw [if_neg he]
    rw [List.isEmpty_iff] at he
    refine ⟨⟨fun hh => (by cases hh), fun hh => absurd hh he⟩, ?_⟩
    intro l hl
    injection hl with hl
    subst hl
    refine ⟨firstSeen_nodup _, ?_, ?_⟩
    · intro cat
      rw [firstSeen_mem, List.mem_map]
      constructor
      · rintro ⟨art, hart, hcat⟩
        obtain ⟨mg, hmgmem, hmgid⟩ := hcov art (hsub art hart)
        refine ⟨art, hart, mg, hmgmem, hmgid, ?_⟩
        rw [← hcat, findMagazine_eq s art.magazineId mg hnd hmgmem hmgid]
      · rintro ⟨art, hart, mg, hmgmem, hmgid, hcat⟩
        refine ⟨art, hart, ?_⟩
        rw [findMagazine_eq s art.magazineId mg hnd hmgmem hmgid, hcat]
    · intro art hart
      obtain ⟨mg, hmgmem, hmgid⟩ :=
        hcov art (hsub art (by rw [hart]; exact List.mem_cons_self _ _))
      refine ⟨mg, hmgmem, hmgid, ?_⟩
      rw [hart]
      simp only [List.map_cons, List.map_nil, firstSeen, List.filter_nil]
      rw [findMagazine_eq s art.magazineId mg hnd hmgmem hmgid]

theorem topic_areas_spec_witness :
    (∀ art ∈ ([⟨0, 1, "Hello"⟩] : List Article),
      ∃ mg ∈ ([⟨1, "MM", "Tech"⟩] : List Magazine), mg.id = art.magazineId) ∧
    Author.topic_areas ⟨[⟨0, 1, "Hello"⟩], [⟨1, "MM", "Tech"⟩]⟩ ⟨0, "A"⟩
      = some ["Tech"] ∧
    (["Tech"] : List String).Nodup := by
  refine ⟨by decide, by decide, ?_⟩
  exact ((topic_areas_spec ⟨[⟨0, 1, "Hello"⟩], [⟨1, "MM", "Tech"⟩]⟩ ⟨0, "A"⟩
    (by decide) (by decide)).2 ["Tech"] (by decide)).1

end ManyToMany
